import Mathlib

/-!
Verification of the scoreboard module design (Problem 6 of the repository).

The scoreboard module is specified in the repository as a design document
whose executable content is JavaScript pseudocode: `getTopUsers`,
`updateUserScore`, and the `POST /api/score/update` handler, together with
the Redis key layout (sorted set `leaderboard:{category}`, hashes
`users:{category}:{userId}`) and the PostgreSQL tables `users`, `scores`
and `score_updates`.

This file gives a shallow embedding of that pseudocode.  Categories are
independent namespaces (keys are namespaced by `{category}` and no
operation touches two categories), so the state models the keys of one
category.  Redis sorted sets keep members unique; equal-score members are
ordered lexicographically by member, and `ZREVRANGE` returns the reverse
(score descending, then member lexicographically descending).
-/

/-- Update-or-insert on an association list: the model of Redis `HSET` on a
whole hash (`users:{category}:{userId}`) and of `ZADD` (member score update
or insert). -/
def assocSet {α : Type} (k : String) (v : α) : List (String × α) → List (String × α)
  | [] => [(k, v)]
  | (k₀, v₀) :: rest => if k₀ = k then (k, v) :: rest else (k₀, v₀) :: assocSet k v rest

/-- Lookup on an association list: the model of Redis `HGETALL` / `HGET`
(`none` when the key is absent) and of an SQL point `SELECT`. -/
def assocGet {α : Type} (k : String) : List (String × α) → Option α
  | [] => none
  | (k₀, v) :: rest => if k₀ = k then some v else assocGet k rest

/-- Fields of the per-user Redis hash `users:{category}:{userId}`: the
pseudocode stores the fields `username` and `score`. -/
structure UserHash where
  username : String
  score : Nat
deriving DecidableEq, Repr

/-- Redis state for one category: the sorted set `leaderboard:{category}`
as an association list member ↦ score, and the hashes
`users:{category}:{userId}` as an association list userId ↦ fields. -/
structure RedisState where
  zset : List (String × Nat)
  hashes : List (String × UserHash)
deriving DecidableEq, Repr

/-- Lexicographic strict order on character lists, the order Redis uses on
sorted-set members with equal scores (UTF-8 byte order coincides with code
point order). -/
def lexLtB : List Char → List Char → Bool
  | [], [] => false
  | [], _ :: _ => true
  | _ :: _, [] => false
  | a :: as, b :: bs => a.toNat < b.toNat || (a.toNat = b.toNat && lexLtB as bs)

/-- Lexicographic strict order on strings (by their character data). -/
def strLtB (a b : String) : Bool := lexLtB a.data b.data

/-- Whether sorted-set entry `a` comes strictly before entry `b` in
`ZREVRANGE` order: greater score first, ties broken by lexicographically
greater member first (Redis orders equal-score members lexicographically
ascending and `ZREVRANGE` reverses). -/
def zrevBefore (a b : String × Nat) : Bool :=
  decide (b.2 < a.2) || (decide (a.2 = b.2) && strLtB b.1 a.1)

/-- Insert one entry into a list that is already in `ZREVRANGE` order. -/
def zrevInsert (p : String × Nat) : List (String × Nat) → List (String × Nat)
  | [] => [p]
  | q :: rest => if zrevBefore p q then p :: q :: rest else q :: zrevInsert p rest

/-- All entries of the sorted set listed in `ZREVRANGE` order. -/
def zrevAll (l : List (String × Nat)) : List (String × Nat) :=
  l.foldr zrevInsert []

/-- The leaderboard size: the design fixes it at 10 ("trim the sorted set
to keep only top 10", `zremrangebyrank(key, 0, -11)`, `zrevrange(key, 0, 9)`).
This is the configured N of the Leaderboard Store. -/
def topN : Nat := 10

/-- Model of `zrevrange(leaderboard:{category}, 0, 9, "WITHSCORES")`:
the first `topN` entries in `ZREVRANGE` order. -/
def zrevrangeTop (st : RedisState) : List (String × Nat) :=
  (zrevAll st.zset).take topN

/-- An element of the list returned by `getTopUsers`. -/
structure TopUser where
  userId : String
  username : String
  score : Nat
deriving DecidableEq, Repr

/-- The loop body of `getTopUsers`: for each `(userId, score)` pair from
`ZREVRANGE ... WITHSCORES`, fetch `hgetall(users:{category}:{userId})`;
if the hash exists and its `username` field is truthy (non-empty), push
`{userId, username, score}`; otherwise only `console.warn` and skip. -/
def collectTopUsers (hashes : List (String × UserHash)) :
    List (String × Nat) → List TopUser
  | [] => []
  | (userId, score) :: rest =>
    match assocGet userId hashes with
    | some userData =>
      if userData.username = "" then collectTopUsers hashes rest
      else { userId := userId, username := userData.username, score := score } ::
        collectTopUsers hashes rest
    | none => collectTopUsers hashes rest

/-- Model of the pseudocode `getTopUsers(category)`: read the top 10 of the
sorted set with scores, then join each member against its user hash,
silently skipping members whose hash data is missing. -/
def getTopUsers (st : RedisState) : List TopUser :=
  collectTopUsers st.hashes (zrevrangeTop st)

/-- The hash test performed inside the `getTopUsers` loop for one member:
its hash exists and the `username` field is truthy. -/
def hashOk (hashes : List (String × UserHash)) (uid : String) : Bool :=
  match assocGet uid hashes with
  | some userData => if userData.username = "" then false else true
  | none => false

/-- The user id the cleanup loop of `updateUserScore` recovers from a hash
key `users:{category}:{userId}` via `key.split(":")[2]`: for a category
name without a colon (the design's examples are `global`, `game1`,
`game2`) this is the stored id's segment before its first colon — the
whole id only when the id itself contains no colon. -/
def keySplitUid (uid : String) : String :=
  ⟨uid.data.takeWhile (fun c => c != ':')⟩

/-- Model of the pseudocode `updateUserScore(userId, newScore, username,
category)`: `hset` the user hash, `zadd` the sorted set, trim with
`zremrangebyrank(key, 0, -11)` (keep the 10 highest-ranked members), then
iterate `keys(users:{category}:*)`, recover each hash's user id as
`key.split(":")[2]` and delete the hash when that recovered id is not
among the user ids returned by `getTopUsers` after the trim. -/
def updateUserScore (userId : String) (newScore : Nat) (username : String)
    (st : RedisState) : RedisState :=
  let afterHset : RedisState :=
    { st with hashes := assocSet userId ⟨username, newScore⟩ st.hashes }
  let afterZadd : RedisState :=
    { afterHset with zset := assocSet userId newScore afterHset.zset }
  let afterTrim : RedisState :=
    { afterZadd with zset := (zrevAll afterZadd.zset).take topN }
  let newTopIds := (getTopUsers afterTrim).map (fun u => u.userId)
  { afterTrim with
    hashes := afterTrim.hashes.filter (fun kv => newTopIds.contains (keySplitUid kv.1)) }

/-- One call of `updateUserScore` (one category, so no category field). -/
structure UpdateCall where
  userId : String
  newScore : Nat
  username : String
deriving DecidableEq, Repr

/-- Run a sequence of `updateUserScore` calls. -/
def applyCalls (calls : List UpdateCall) (st : RedisState) : RedisState :=
  calls.foldl (fun s c => updateUserScore c.userId c.newScore c.username s) st

/-- The Redis state of a category before any update. -/
def emptyRedis : RedisState := ⟨[], []⟩

/-- Server-side record of an issued action token, as stored in Redis:
the user it was issued to, its expiry instant, and the used flag. -/
structure TokenRecord where
  user : String
  expiry : Nat
  consumed : Bool
deriving DecidableEq, Repr

/-- Modelled from the spec: the body of `validateActionToken` is missing
from the repository (only its call site `validateActionToken(actionToken,
userId)` exists, together with the notes "check if valid, not expired, not
used" and "marked as used after consumption").  The model checks the
server-side token store for the key, verifies the user and the expiry and
the used flag, and marks the token used, all as one atomic step.  Presence
of the token key in the store with its payload stands for signature
validity (a token forged without the server key is never in the store). -/
def validateActionToken (store : List (String × TokenRecord)) (tok user : String)
    (now : Nat) : Bool × List (String × TokenRecord) :=
  match assocGet tok store with
  | some r =>
    if r.user = user ∧ now < r.expiry ∧ r.consumed = false then
      (true, assocSet tok ⟨r.user, r.expiry, true⟩ store)
    else (false, store)
  | none => (false, store)

/-- Server-side record of the spec-level action token: user, category,
expiry, consumed flag. -/
structure SpecTokenRecord where
  user : String
  category : String
  expiry : Nat
  consumed : Bool
deriving DecidableEq, Repr

/-- Modelled from the spec: the consume operation of the Action Token
Service.  The repository documents the token store ("Tokens are stored in
Redis with TTL for validation and marked as used after consumption") but
contains no body for the validation routine, so this follows the spec
wording: `consume(token, expectedUser, expectedCategory)` "verifies
signature integrity, exact match of user and category, unexpired status,
and not previously consumed, as a single atomic check-and-mark operation";
on success the token is marked consumed permanently.  Presence of the
token key in the server-side store with its payload stands for signature
validity (a token forged without the server key is never in the store).
Because the whole check-and-mark is one atomic step, any concurrent
execution of two `consume` calls is equivalent to one of their two
serializations. -/
def consume (store : List (String × SpecTokenRecord)) (tok user category : String)
    (now : Nat) : Bool × List (String × SpecTokenRecord) :=
  match assocGet tok store with
  | some r =>
    if r.user = user ∧ r.category = category ∧ now < r.expiry ∧ r.consumed = false then
      (true, assocSet tok ⟨r.user, r.category, r.expiry, true⟩ store)
    else (false, store)
  | none => (false, store)

/-- A token `consume` would accept at instant `now`: present in the store,
issued to this user and category, unexpired, not yet consumed. -/
def consumeValid (store : List (String × SpecTokenRecord)) (tok user category : String)
    (now : Nat) : Bool :=
  match assocGet tok store with
  | some r => decide (r.user = user) && decide (r.category = category) &&
      decide (now < r.expiry) && !r.consumed
  | none => false

/-- One row of the `score_updates` audit table (category fixed):
`(user_id, old_score, new_score, action_token)`. -/
structure AuditEntry where
  userId : String
  oldScore : Nat
  newScore : Nat
  actionToken : String
deriving DecidableEq, Repr

/-- The database state: `users` (user_id ↦ username), `scores` (this
category's rows, user_id ↦ score) and the `score_updates` audit log. -/
structure DbState where
  users : List (String × String)
  scores : List (String × Nat)
  auditLog : List AuditEntry
deriving DecidableEq, Repr

/-- Model of `UPDATE scores SET score = $1 WHERE user_id = $2 AND category
= $3`: updates the row if it exists, touches nothing otherwise (SQL UPDATE
inserts no row). -/
def dbUpdateScores (uid : String) (s : Nat) : List (String × Nat) → List (String × Nat)
  | [] => []
  | (k, v) :: rest => if k = uid then (k, s) :: rest else (k, v) :: dbUpdateScores uid s rest

/-- Modelled from the spec: `getScore(user, category) -> score | 0 if
absent`, the Durable Score Ledger read.  The handler in the repository
never performs this read for scores (it reads the Redis hash instead);
the definition states what the authoritative base score is. -/
def getScore (db : DbState) (uid : String) : Nat :=
  (assocGet uid db.scores).getD 0

/-- One SQL statement issued by the update handler; each `db.query` call
is its own commit unit (the pseudocode opens no transaction around them). -/
inductive DbWrite
  | updateScore (userId : String) (newScore : Nat)
  | insertAudit (entry : AuditEntry)
deriving DecidableEq, Repr

/-- Apply one SQL statement to the database state. -/
def applyDbWrite (db : DbState) : DbWrite → DbState
  | .updateScore uid s => { db with scores := dbUpdateScores uid s db.scores }
  | .insertAudit e => { db with auditLog := db.auditLog ++ [e] }

/-- The two `db.query` calls the handler issues on a successful update, in
source order: first the `UPDATE scores` statement, then the `INSERT INTO
score_updates` statement. -/
def scoreUpdateDbWrites (userId : String) (currentScore newScore : Nat)
    (actionToken : String) : List DbWrite :=
  [.updateScore userId newScore,
   .insertAudit ⟨userId, currentScore, newScore, actionToken⟩]

/-- The whole system state the handler touches: the action-token store,
the Redis keys of the request's category, and the database. -/
structure SysState where
  tokens : List (String × TokenRecord)
  redis : RedisState
  db : DbState
deriving DecidableEq, Repr

/-- The handler's HTTP outcome: 400, 403, 404, or 200 with the new score. -/
inductive HResp
  | badRequest
  | forbidden
  | notFound
  | ok (newScore : Nat)
deriving DecidableEq, Repr

/-- Externally observable steps of one handler run, in execution order. -/
inductive Ev
  | tokenChecked
  | redisUpserted
  | dbScoreUpdated
  | dbAuditInserted
  | broadcasted
deriving DecidableEq, Repr

/-- Result of one handler run: response, post state, and the ordered list
of observable steps. -/
structure HandlerOut where
  resp : HResp
  state : SysState
  trace : List Ev
deriving DecidableEq, Repr

/-- Model of the pseudocode `POST /api/score/update` handler:
reject 400 on missing fields; validate (and burn) the action token, 403 on
failure; read `currentScore` from the Redis hash (`parseInt(...) || 0`,
so 0 when the hash is absent); `newScore = currentScore + 10` (the fixed
increment of the pseudocode); resolve the username from the Redis hash,
falling back to the `users` table, 404 when both are falsy; snapshot the
old top users; `updateUserScore` in Redis; run the two database queries;
snapshot the new top users; emit `scoreboard_update` via WebSocket iff the
`JSON.stringify` of the snapshots differ (iff the lists differ); respond
with the new score. -/
def scoreUpdateHandler (st : SysState) (userId actionToken : String)
    (now : Nat) : HandlerOut :=
  if userId = "" ∨ actionToken = "" then ⟨.badRequest, st, []⟩
  else
    let checked := validateActionToken st.tokens actionToken userId now
    let stTok : SysState := { st with tokens := checked.2 }
    if checked.1 = false then ⟨.forbidden, stTok, [.tokenChecked]⟩
    else
      let currentScore := ((assocGet userId stTok.redis.hashes).map
        (fun h => h.score)).getD 0
      let newScore := currentScore + 10
      let redisName := ((assocGet userId stTok.redis.hashes).map
        (fun h => h.username)).getD ""
      let username := if redisName = ""
        then (assocGet userId stTok.db.users).getD "" else redisName
      if username = "" then ⟨.notFound, stTok, [.tokenChecked]⟩
      else
        let oldTopUsers := getTopUsers stTok.redis
        let newRedis := updateUserScore userId newScore username stTok.redis
        let newDb := (scoreUpdateDbWrites userId currentScore newScore
          actionToken).foldl applyDbWrite stTok.db
        let newTopUsers := getTopUsers newRedis
        let stDone : SysState := { stTok with redis := newRedis, db := newDb }
        ⟨.ok newScore, stDone,
          [.tokenChecked, .redisUpserted, .dbScoreUpdated, .dbAuditInserted] ++
            (if oldTopUsers = newTopUsers then [] else [.broadcasted])⟩

/-- Strict version of the `ZREVRANGE` order as a relation on entries:
`a` comes strictly before `b` (greater score, or equal scores and
lexicographically greater member). -/
def zrevStrict (a b : String × Nat) : Prop :=
  b.2 < a.2 ∨ (b.2 = a.2 ∧ strLtB b.1 a.1 = true)

/-- The reachability invariant of the per-category Redis keys: the hash
keys are exactly the sorted-set members, every stored hash has a truthy
username, and every stored hash id survives the cleanup loop's
`key.split(":")[2]` extraction unchanged (it contains no colon). -/
def goodState (st : RedisState) : Prop :=
  (∀ uid, (assocGet uid st.hashes).isSome = true ↔ uid ∈ st.zset.map Prod.fst) ∧
  (∀ kv ∈ st.hashes, kv.2.username ≠ "") ∧
  (∀ kv ∈ st.hashes, keySplitUid kv.1 = kv.1)

/-- The maximum score cap named by the design: "Implement a maximum score
cap (e.g., 1,000,000) to prevent overflow or exploits." -/
def MAX_SCORE : Nat := 1000000

/-- A state with the single competitor alice at the cap, a valid token,
and consistent Redis and database rows. -/
def capState : SysState :=
  { tokens := [("tokA", ⟨"alice", 100, false⟩)],
    redis := ⟨[("alice", MAX_SCORE)], [("alice", ⟨"alice", MAX_SCORE⟩)]⟩,
    db := ⟨[("alice", "alice")], [("alice", MAX_SCORE)], []⟩ }

/-- A state with the single competitor alice at score 10 in the top list,
a valid token, and consistent Redis and database rows. -/
def bumpState : SysState :=
  { tokens := [("tokA", ⟨"alice", 100, false⟩)],
    redis := ⟨[("alice", 10)], [("alice", ⟨"alice", 10⟩)]⟩,
    db := ⟨[("alice", "alice")], [("alice", 10)], []⟩ }

/-- A state identical in content to `bumpState`, used to trace the order
of the handler's effects. -/
def orderState : SysState :=
  { tokens := [("tokA", ⟨"alice", 100, false⟩)],
    redis := ⟨[("alice", 10)], [("alice", ⟨"alice", 10⟩)]⟩,
    db := ⟨[("alice", "alice")], [("alice", 10)], []⟩ }

/-- A state identical in content to `bumpState`, used to examine the two
database statements of one successful update. -/
def auditState : SysState :=
  { tokens := [("tokA", ⟨"alice", 100, false⟩)],
    redis := ⟨[("alice", 10)], [("alice", ⟨"alice", 10⟩)]⟩,
    db := ⟨[("alice", "alice")], [("alice", 10)], []⟩ }

/-- A state where alice holds a durable score of 500 in the database but
is absent from the Redis top-10 keys (outside the top-N). -/
def ledgerState : SysState :=
  { tokens := [("tokA", ⟨"alice", 100, false⟩)],
    redis := ⟨[], []⟩,
    db := ⟨[("alice", "alice")], [("alice", 500)], []⟩ }

/-- A Redis state whose sorted set has ten members but whose hash for
member u9 is missing. -/
def shortState : RedisState :=
  ⟨[("u0", 1), ("u1", 2), ("u2", 3), ("u3", 4), ("u4", 5),
    ("u5", 6), ("u6", 7), ("u7", 8), ("u8", 9), ("u9", 10)],
   [("u0", ⟨"u0", 1⟩), ("u1", ⟨"u1", 2⟩), ("u2", ⟨"u2", 3⟩), ("u3", ⟨"u3", 4⟩),
    ("u4", ⟨"u4", 5⟩), ("u5", ⟨"u5", 6⟩), ("u6", ⟨"u6", 7⟩), ("u7", ⟨"u7", 8⟩),
    ("u8", ⟨"u8", 9⟩)]⟩

/-! ## Order lemmas for the member comparison -/

theorem lexLtB_asymm : ∀ {a b : List Char}, lexLtB a b = true → lexLtB b a = false
  | [], [], h => by simp [lexLtB] at h
  | [], _ :: _, _ => by simp [lexLtB]
  | _ :: _, [], h => by simp [lexLtB] at h
  | a :: as, b :: bs, h => by
    simp only [lexLtB, Bool.or_eq_true, Bool.and_eq_true, decide_eq_true_eq] at h ⊢
    rcases h with h | ⟨he, h⟩
    · simp [Nat.lt_asymm h, Nat.ne_of_gt h]
    · simp [he, Nat.lt_irrefl, lexLtB_asymm h]

theorem lexLtB_trans : ∀ {a b c : List Char},
    lexLtB a b = true → lexLtB b c = true → lexLtB a c = true
  | [], [], _, h, _ => by simp [lexLtB] at h
  | [], _ :: _, [], _, h => by simp [lexLtB] at h
  | [], _ :: _, _ :: _, _, _ => by simp [lexLtB]
  | _ :: _, [], _, h, _ => by simp [lexLtB] at h
  | _ :: _, _ :: _, [], _, h => by simp [lexLtB] at h
  | a :: as, b :: bs, c :: cs, h₁, h₂ => by
    simp only [lexLtB, Bool.or_eq_true, Bool.and_eq_true, decide_eq_true_eq] at h₁ h₂ ⊢
    rcases h₁ with h₁ | ⟨h₁e, h₁⟩ <;> rcases h₂ with h₂ | ⟨h₂e, h₂⟩
    · exact Or.inl (h₁.trans h₂)
    · exact Or.inl (h₂e ▸ h₁)
    · exact Or.inl (h₁e ▸ h₂)
    · exact Or.inr ⟨h₁e.trans h₂e, lexLtB_trans h₁ h₂⟩

theorem lexLtB_connex : ∀ {a b : List Char},
    lexLtB a b = false → lexLtB b a = false → a = b
  | [], [], _, _ => rfl
  | [], _ :: _, h, _ => by simp [lexLtB] at h
  | _ :: _, [], _, h => by simp [lexLtB] at h
  | a :: as, b :: bs, h₁, h₂ => by
    simp only [lexLtB, Bool.or_eq_false_iff, Bool.and_eq_false_iff,
      decide_eq_false_iff_not, Nat.not_lt, decide_eq_true_eq] at h₁ h₂
    have he : a.toNat = b.toNat := Nat.le_antisymm h₂.1 h₁.1
    have hch : a = b := Char.ext (UInt32.ext he)
    rcases h₁.2 with h₁b | h₁b
    · exact absurd he h₁b
    · rcases h₂.2 with h₂b | h₂b
      · exact absurd he.symm h₂b
      · exact hch ▸ congrArg (a :: ·) (lexLtB_connex h₁b h₂b)

theorem strLtB_asymm {a b : String} (h : strLtB a b = true) : strLtB b a = false :=
  lexLtB_asymm h

theorem strLtB_trans {a b c : String} (h₁ : strLtB a b = true) (h₂ : strLtB b c = true) :
    strLtB a c = true :=
  lexLtB_trans h₁ h₂

theorem strLtB_connex {a b : String} (h₁ : strLtB a b = false) (h₂ : strLtB b a = false) :
    a = b := by
  have := lexLtB_connex h₁ h₂
  cases a; cases b; exact congrArg String.mk this

theorem zrevBefore_asymm {a b : String × Nat} (h : zrevBefore a b = true) :
    zrevBefore b a = false := by
  unfold zrevBefore at h ⊢
  simp only [Bool.or_eq_true, Bool.and_eq_true, decide_eq_true_eq] at h
  rcases h with h | ⟨he, hs⟩
  · simp [Nat.lt_asymm h, Nat.ne_of_lt h]
  · simp [he, Nat.lt_irrefl, strLtB_asymm hs]

theorem zrevBefore_trans {a b c : String × Nat} (h₁ : zrevBefore a b = true)
    (h₂ : zrevBefore b c = true) : zrevBefore a c = true := by
  unfold zrevBefore at h₁ h₂ ⊢
  simp only [Bool.or_eq_true, Bool.and_eq_true, decide_eq_true_eq] at h₁ h₂ ⊢
  rcases h₁ with h₁ | ⟨h₁e, h₁s⟩ <;> rcases h₂ with h₂ | ⟨h₂e, h₂s⟩
  · exact Or.inl (h₂.trans h₁)
  · exact Or.inl (by rw [← h₂e]; exact h₁)
  · exact Or.inl (by rw [h₁e]; exact h₂)
  · exact Or.inr ⟨h₁e.trans h₂e, strLtB_trans h₂s h₁s⟩

/-! ## The sort used by the `ZREVRANGE` model -/

theorem zrevInsert_perm (p : String × Nat) :
    ∀ l, List.Perm (zrevInsert p l) (p :: l)
  | [] => List.Perm.refl _
  | q :: rest => by
    unfold zrevInsert
    by_cases h : zrevBefore p q = true
    · rw [if_pos h]
    · rw [if_neg h]
      exact List.Perm.trans ((zrevInsert_perm p rest).cons q) (List.Perm.swap p q rest)

theorem zrevAll_perm : ∀ l : List (String × Nat), List.Perm (zrevAll l) l
  | [] => List.Perm.refl _
  | x :: l => by
    unfold zrevAll
    simp only [List.foldr_cons]
    exact List.Perm.trans (zrevInsert_perm x (List.foldr zrevInsert [] l))
      ((zrevAll_perm l).cons x)

theorem pairwise_zrevInsert (p : String × Nat) :
    ∀ {l}, l.Pairwise (fun a b => zrevBefore b a = false) →
      (zrevInsert p l).Pairwise (fun a b => zrevBefore b a = false)
  | [], _ => by simp [zrevInsert]
  | q :: rest, h => by
    rw [List.pairwise_cons] at h
    unfold zrevInsert
    by_cases hb : zrevBefore p q = true
    · rw [if_pos hb]
      refine List.Pairwise.cons ?_ (List.Pairwise.cons h.1 h.2)
      intro x hx
      rcases List.mem_cons.mp hx with rfl | hx
      · exact zrevBefore_asymm hb
      · cases hxp : zrevBefore x p
        · rfl
        · have hxq := zrevBefore_trans hxp hb
          rw [h.1 x hx] at hxq
          exact absurd hxq (by simp)
    · rw [if_neg hb]
      have hb₀ : zrevBefore p q = false := by
        cases hbb : zrevBefore p q
        · rfl
        · exact absurd hbb hb
      refine List.Pairwise.cons ?_ (pairwise_zrevInsert p h.2)
      intro x hx
      rcases List.mem_cons.mp ((zrevInsert_perm p rest).mem_iff.mp hx) with rfl | hx
      · exact hb₀
      · exact h.1 x hx

theorem zrevAll_sorted : ∀ l : List (String × Nat),
    (zrevAll l).Pairwise (fun a b => zrevBefore b a = false)
  | [] => List.Pairwise.nil
  | x :: l => by
    unfold zrevAll
    simp only [List.foldr_cons]
    exact pairwise_zrevInsert x (zrevAll_sorted l)

/-! ## Association-list lemmas -/

theorem assocGet_assocSet_self {α : Type} (k : String) (v : α) :
    ∀ l : List (String × α), assocGet k (assocSet k v l) = some v
  | [] => by simp [assocSet, assocGet]
  | (k₀, v₀) :: rest => by
    by_cases h : k₀ = k
    · simp [assocSet, assocGet, h]
    · simp [assocSet, assocGet, h, assocGet_assocSet_self k v rest]

theorem assocGet_mem {α : Type} {k : String} {v : α} :
    ∀ {l : List (String × α)}, assocGet k l = some v → (k, v) ∈ l
  | [], h => by simp [assocGet] at h
  | (k₀, v₀) :: rest, h => by
    by_cases hk : k₀ = k
    · subst hk
      simp [assocGet] at h
      simp [h]
    · simp [assocGet, hk] at h
      exact List.mem_cons_of_mem _ (assocGet_mem h)

theorem assocGet_isSome_iff {α : Type} (k : String) :
    ∀ l : List (String × α), (assocGet k l).isSome = true ↔ k ∈ l.map Prod.fst
  | [] => by simp [assocGet]
  | (k₀, v₀) :: rest => by
    by_cases hk : k₀ = k
    · subst hk; simp [assocGet]
    · simp [assocGet, hk, assocGet_isSome_iff k rest, Ne.symm hk]

theorem mem_keys_assocSet {α : Type} (a k : String) (v : α) :
    ∀ l : List (String × α),
      (a ∈ (assocSet k v l).map Prod.fst ↔ a = k ∨ a ∈ l.map Prod.fst)
  | [] => by simp [assocSet]
  | (k₀, v₀) :: rest => by
    by_cases hk : k₀ = k
    · subst hk; simp [assocSet]
    · simp [assocSet, hk, mem_keys_assocSet a k v rest]; tauto

theorem nodupKeys_assocSet {α : Type} (k : String) (v : α) :
    ∀ {l : List (String × α)}, (l.map Prod.fst).Nodup → ((assocSet k v l).map Prod.fst).Nodup
  | [], _ => by simp [assocSet]
  | (k₀, v₀) :: rest, h => by
    simp only [List.map_cons, List.nodup_cons] at h
    by_cases hk : k₀ = k
    · subst hk; simpa [assocSet] using h
    · simp only [assocSet, hk, if_false, List.map_cons, List.nodup_cons]
      refine ⟨fun hmem => ?_, nodupKeys_assocSet k v h.2⟩
      rcases (mem_keys_assocSet k₀ k v rest).mp hmem with h₁ | h₁
      · exact hk h₁
      · exact h.1 h₁

theorem mem_assocSet {α : Type} {kv : String × α} {k : String} {v : α} :
    ∀ {l : List (String × α)}, kv ∈ assocSet k v l → kv = (k, v) ∨ kv ∈ l
  | [], h => by simpa [assocSet] using h
  | (k₀, v₀) :: rest, h => by
    by_cases hk : k₀ = k
    · subst hk
      rcases (by simpa [assocSet] using h : kv = (k₀, v) ∨ kv ∈ rest) with h₁ | h₁
      · exact Or.inl h₁
      · exact Or.inr (List.mem_cons_of_mem _ h₁)
    · rcases (by simpa [assocSet, hk] using h : kv = (k₀, v₀) ∨ kv ∈ assocSet k v rest)
        with h₁ | h₁
      · exact Or.inr (by simp [h₁])
      · rcases mem_assocSet h₁ with h₂ | h₂
        · exact Or.inl h₂
        · exact Or.inr (List.mem_cons_of_mem _ h₂)

/-! ## Lemmas about the `getTopUsers` loop -/

theorem collect_pairs_eq_filter (hashes : List (String × UserHash)) :
    ∀ l : List (String × Nat),
      (collectTopUsers hashes l).map (fun e => (e.userId, e.score)) =
        l.filter (fun p => hashOk hashes p.1)
  | [] => by simp [collectTopUsers]
  | (uid, s) :: rest => by
    cases hget : assocGet uid hashes with
    | none =>
      simp [collectTopUsers, hget, List.filter_cons, hashOk,
        collect_pairs_eq_filter hashes rest]
    | some userData =>
      by_cases hname : userData.username = ""
      · simp [collectTopUsers, hget, hname, List.filter_cons, hashOk,
          collect_pairs_eq_filter hashes rest]
      · simp [collectTopUsers, hget, hname, List.filter_cons, hashOk,
          collect_pairs_eq_filter hashes rest]

theorem collect_ids_eq (hashes : List (String × UserHash)) (l : List (String × Nat)) :
    (collectTopUsers hashes l).map (fun e => e.userId) =
      (l.filter (fun p => hashOk hashes p.1)).map Prod.fst := by
  have h := congrArg (List.map Prod.fst) (collect_pairs_eq_filter hashes l)
  simpa [List.map_map, Function.comp] using h

theorem collect_length_le (hashes : List (String × UserHash)) (l : List (String × Nat)) :
    (collectTopUsers hashes l).length ≤ l.length := by
  have h := congrArg List.length (collect_pairs_eq_filter hashes l)
  simp only [List.length_map] at h
  exact h ▸ List.length_filter_le _ l

/-! ## Ordering of the snapshot -/

theorem pairwise_strict_of_sorted {l : List (String × Nat)}
    (hs : l.Pairwise (fun a b => zrevBefore b a = false))
    (hn : (l.map Prod.fst).Nodup) : l.Pairwise zrevStrict := by
  have hne : l.Pairwise (fun a b : String × Nat => a.1 ≠ b.1) := List.pairwise_map.mp hn
  refine (hs.and hne).imp ?_
  intro a b hab
  have h₁ := hab.1
  unfold zrevBefore at h₁
  simp only [Bool.or_eq_false_iff, Bool.and_eq_false_iff, decide_eq_false_iff_not,
    decide_eq_true_eq] at h₁
  rcases Nat.lt_or_ge b.2 a.2 with hlt | hge
  · exact Or.inl hlt
  · have he : b.2 = a.2 := Nat.le_antisymm (Nat.not_lt.mp h₁.1) hge
    have hsf : strLtB a.1 b.1 = false := by
      rcases h₁.2 with h | h
      · exact absurd he h
      · exact h
    have hba : strLtB b.1 a.1 = true := by
      cases hc : strLtB b.1 a.1
      · exact absurd (strLtB_connex hsf hc) hab.2
      · rfl
    exact Or.inr ⟨he, hba⟩

theorem pairwise_zrevrangeTop {st : RedisState} (hn : (st.zset.map Prod.fst).Nodup) :
    (zrevrangeTop st).Pairwise zrevStrict := by
  have hp := zrevAll_perm st.zset
  have hnz : ((zrevAll st.zset).map Prod.fst).Nodup := ((hp.map Prod.fst).nodup_iff).mpr hn
  exact (pairwise_strict_of_sorted (zrevAll_sorted st.zset) hnz).sublist
    (List.take_sublist _ _)

/-! ## Reachable Redis states -/

theorem updateUserScore_zset (uid : String) (ns : Nat) (uname : String) (st : RedisState) :
    (updateUserScore uid ns uname st).zset =
      (zrevAll (assocSet uid ns st.zset)).take topN := rfl

theorem updateUserScore_hashes (uid : String) (ns : Nat) (uname : String) (st : RedisState) :
    (updateUserScore uid ns uname st).hashes =
      (assocSet uid ⟨uname, ns⟩ st.hashes).filter (fun kv =>
        ((getTopUsers ⟨(zrevAll (assocSet uid ns st.zset)).take topN,
          assocSet uid ⟨uname, ns⟩ st.hashes⟩).map
            (fun u => u.userId)).contains (keySplitUid kv.1)) := rfl

theorem nodup_zset_updateUserScore (uid : String) (ns : Nat) (uname : String)
    {st : RedisState} (h : (st.zset.map Prod.fst).Nodup) :
    (((updateUserScore uid ns uname st).zset).map Prod.fst).Nodup := by
  rw [updateUserScore_zset]
  have h₁ : ((assocSet uid ns st.zset).map Prod.fst).Nodup := nodupKeys_assocSet _ _ h
  have hp := zrevAll_perm (assocSet uid ns st.zset)
  have h₂ : ((zrevAll (assocSet uid ns st.zset)).map Prod.fst).Nodup :=
    ((hp.map Prod.fst).nodup_iff).mpr h₁
  exact h₂.sublist ((List.take_sublist _ _).map Prod.fst)

theorem nodup_zset_applyCalls :
    ∀ (calls : List UpdateCall) (st : RedisState),
      (st.zset.map Prod.fst).Nodup → (((applyCalls calls st).zset).map Prod.fst).Nodup
  | [], _, h => h
  | c :: rest, _, h =>
    nodup_zset_applyCalls rest _ (nodup_zset_updateUserScore c.userId c.newScore c.username h)

theorem mem_keys_filter_contains (ids : List String) (l : List (String × UserHash)) (a : String) :
    (a ∈ (l.filter (fun kv => ids.contains kv.1)).map Prod.fst) ↔
      (a ∈ l.map Prod.fst ∧ a ∈ ids) := by
  simp only [List.mem_map, List.mem_filter]
  constructor
  · rintro ⟨kv, ⟨hmem, hc⟩, rfl⟩
    exact ⟨⟨kv, hmem, rfl⟩, List.elem_iff.mp hc⟩
  · rintro ⟨⟨kv, hmem, rfl⟩, hid⟩
    exact ⟨kv, ⟨hmem, List.elem_iff.mpr hid⟩, rfl⟩

theorem goodState_updateUserScore {st : RedisState} (hg : goodState st)
    (uid : String) (ns : Nat) (uname : String) (hu : uname ≠ "")
    (huid : keySplitUid uid = uid) :
    goodState (updateUserScore uid ns uname st) := by
  have hH : (updateUserScore uid ns uname st).hashes =
      (assocSet uid ⟨uname, ns⟩ st.hashes).filter (fun kv =>
        ((getTopUsers ⟨(zrevAll (assocSet uid ns st.zset)).take topN,
          assocSet uid ⟨uname, ns⟩ st.hashes⟩).map
            (fun u => u.userId)).contains (keySplitUid kv.1)) :=
    updateUserScore_hashes uid ns uname st
  have hZ : (updateUserScore uid ns uname st).zset =
      (zrevAll (assocSet uid ns st.zset)).take topN := updateUserScore_zset uid ns uname st
  set H : List (String × UserHash) := assocSet uid ⟨uname, ns⟩ st.hashes with hHdef
  set Z : List (String × Nat) := (zrevAll (assocSet uid ns st.zset)).take topN with hZdef
  have husers : ∀ kv ∈ H, kv.2.username ≠ "" := by
    intro kv hkv
    rcases mem_assocSet hkv with h₁ | h₁
    · rw [h₁]; exact hu
    · exact hg.2.1 kv h₁
  have hHsplit : ∀ kv ∈ H, keySplitUid kv.1 = kv.1 := by
    intro kv hkv
    rcases mem_assocSet hkv with h₁ | h₁
    · rw [h₁]; exact huid
    · exact hg.2.2 kv h₁
  have hHfix : (updateUserScore uid ns uname st).hashes =
      H.filter (fun kv =>
        ((getTopUsers ⟨Z, H⟩).map (fun u => u.userId)).contains kv.1) := by
    rw [hH]
    exact List.filter_congr (fun kv hkv => by rw [hHsplit kv hkv])
  have hHkeys : ∀ a, (assocGet a H).isSome = true ↔
      (a = uid ∨ (assocGet a st.hashes).isSome = true) := by
    intro a
    rw [assocGet_isSome_iff, hHdef, mem_keys_assocSet, assocGet_isSome_iff]
  have hZsub : ∀ a, a ∈ Z.map Prod.fst → a = uid ∨ a ∈ st.zset.map Prod.fst := by
    intro a ha
    have hsub : List.Sublist (Z.map Prod.fst)
        ((zrevAll (assocSet uid ns st.zset)).map Prod.fst) :=
      (List.take_sublist _ _).map Prod.fst
    have hperm := (zrevAll_perm (assocSet uid ns st.zset)).map Prod.fst
    have : a ∈ (assocSet uid ns st.zset).map Prod.fst :=
      hperm.mem_iff.mp (hsub.mem ha)
    exact (mem_keys_assocSet a uid ns st.zset).mp this
  have hZhash : ∀ a, a ∈ Z.map Prod.fst → (assocGet a H).isSome = true := by
    intro a ha
    rcases hZsub a ha with h₁ | h₁
    · subst h₁; rw [hHdef, assocGet_assocSet_self]; rfl
    · exact (hHkeys a).mpr (Or.inr ((hg.1 a).mpr h₁))
  have hZok : ∀ a, a ∈ Z.map Prod.fst → hashOk H a = true := by
    intro a ha
    have h₁ := hZhash a ha
    cases hget : assocGet a H with
    | none => rw [hget] at h₁; simp at h₁
    | some u =>
      have hmem : (a, u) ∈ H := assocGet_mem hget
      have := husers _ hmem
      simp [hashOk, hget, this]
  have hlen : Z.length ≤ topN := by
    rw [hZdef]; exact List.length_take_le _ _
  have htake : (zrevAll Z).take topN = zrevAll Z := by
    apply List.take_of_length_le
    calc (zrevAll Z).length = Z.length := (zrevAll_perm Z).length_eq
    _ ≤ topN := hlen
  have hids : ∀ a, (a ∈ (getTopUsers ⟨Z, H⟩).map (fun u => u.userId)) ↔ a ∈ Z.map Prod.fst := by
    intro a
    rw [getTopUsers, collect_ids_eq]
    have hzr : zrevrangeTop ⟨Z, H⟩ = zrevAll Z := htake
    rw [hzr]
    simp only [List.mem_map, List.mem_filter]
    constructor
    · rintro ⟨p, ⟨hp, _⟩, rfl⟩
      exact ⟨p, ((zrevAll_perm Z).mem_iff).mp hp, rfl⟩
    · rintro ⟨p, hp, rfl⟩
      have hpz : p ∈ zrevAll Z := ((zrevAll_perm Z).mem_iff).mpr hp
      exact ⟨p, ⟨hpz, hZok p.1 (List.mem_map.mpr ⟨p, hp, rfl⟩)⟩, rfl⟩
  refine ⟨?_, ?_, ?_⟩
  · intro a
    rw [hHfix, hZ, assocGet_isSome_iff]
    rw [mem_keys_filter_contains]
    constructor
    · rintro ⟨_, hin⟩
      exact (hids a).mp hin
    · intro ha
      refine ⟨?_, (hids a).mpr ha⟩
      have := hZhash a ha
      rw [assocGet_isSome_iff] at this
      exact this
  · intro kv hkv
    rw [hH] at hkv
    exact husers kv (List.mem_of_mem_filter hkv)
  · intro kv hkv
    rw [hH] at hkv
    exact hHsplit kv (List.mem_of_mem_filter hkv)

theorem goodState_empty : goodState emptyRedis := by
  refine ⟨?_, ?_, ?_⟩
  · intro uid; simp [emptyRedis, assocGet]
  · intro kv hkv; simp [emptyRedis] at hkv
  · intro kv hkv; simp [emptyRedis] at hkv

theorem goodState_applyCalls :
    ∀ (calls : List UpdateCall) (st : RedisState), goodState st →
      (∀ c ∈ calls, c.username ≠ "") →
      (∀ c ∈ calls, keySplitUid c.userId = c.userId) → goodState (applyCalls calls st)
  | [], _, hg, _, _ => hg
  | c :: rest, st, hg, h, hid =>
    goodState_applyCalls rest _
      (goodState_updateUserScore hg c.userId c.newScore c.username (h c (by simp))
        (hid c (by simp)))
      (fun d hd => h d (by simp [hd]))
      (fun d hd => hid d (by simp [hd]))

/-! ## Claims -/

/-- Claim C1: for every action token, two consume operations on the same
token executed concurrently yield exactly one success and one failure,
never two successes, because the validation (store lookup standing for
signature validity, user and category match, expiry, not-yet-consumed) and
the marking are one atomic check-and-mark step.  Since the step is atomic,
a concurrent execution is one of the two serializations, and the two
consumers are symmetric in `n₁`, `n₂`: whichever the store serializes
first succeeds and the other fails, at any later instant. -/
theorem c1_token_consumed_once (store : List (String × SpecTokenRecord))
    (tok user category : String) (n₁ n₂ : Nat)
    (h : consumeValid store tok user category n₁ = true) :
    (consume store tok user category n₁).1 = true ∧
    (consume (consume store tok user category n₁).2 tok user category n₂).1 = false := by
  unfold consumeValid at h
  cases hget : assocGet tok store with
  | none => rw [hget] at h; simp at h
  | some r =>
    rw [hget] at h
    simp only [Bool.and_eq_true, decide_eq_true_eq, Bool.not_eq_true'] at h
    obtain ⟨⟨⟨hu, hc⟩, he⟩, hcon⟩ := h
    have hcond : r.user = user ∧ r.category = category ∧ n₁ < r.expiry ∧ r.consumed = false :=
      ⟨hu, hc, he, hcon⟩
    constructor
    · simp only [consume, hget]
      rw [if_pos hcond]
    · simp only [consume, hget]
      rw [if_pos hcond]
      simp only [consume, assocGet_assocSet_self]
      simp

/-- Claim C1 witness: a concrete valid token consumed twice gives one
success and then one failure. -/
theorem c1_token_consumed_once_witness :
    consumeValid [("tok", ⟨"alice", "global", 100, false⟩)] "tok" "alice" "global" 0 = true ∧
    ((consume [("tok", ⟨"alice", "global", 100, false⟩)] "tok" "alice" "global" 0).1 = true ∧
     (consume (consume [("tok", ⟨"alice", "global", 100, false⟩)] "tok" "alice" "global" 0).2
        "tok" "alice" "global" 5).1 = false) :=
  ⟨by decide, c1_token_consumed_once _ "tok" "alice" "global" 0 5 (by decide)⟩

/-- Claim C2: the handler enforces no score cap.  With alice already at
`MAX_SCORE` (1,000,000) and a valid token, the handler succeeds with
1,000,010 and persists a score above the cap, where the design's own
business-logic validations require the update to be rejected and the score
left unchanged.  (The handler also accepts no client delta at all: the
increment is fixed at +10, so the claimed `Conflict` on an out-of-bound
delta has no code path.) -/
theorem c2_cap_not_enforced :
    getScore capState.db "alice" = MAX_SCORE ∧
    (scoreUpdateHandler capState "alice" "tokA" 0).resp = HResp.ok (MAX_SCORE + 10) ∧
    getScore (scoreUpdateHandler capState "alice" "tokA" 0).state.db "alice" =
      MAX_SCORE + 10 := by decide

/-- Claim C3: after any sequence of update calls starting from the empty
category state, the snapshot returned by `getTopUsers` has at most `topN`
(= 10, the configured N) entries and never two entries for the same user. -/
theorem c3_snapshot_bounds (calls : List UpdateCall) :
    (getTopUsers (applyCalls calls emptyRedis)).length ≤ topN ∧
    ((getTopUsers (applyCalls calls emptyRedis)).map (fun u => u.userId)).Nodup := by
  have hn : (((applyCalls calls emptyRedis).zset).map Prod.fst).Nodup :=
    nodup_zset_applyCalls calls emptyRedis (by simp [emptyRedis])
  constructor
  · exact le_trans (collect_length_le _ _) (List.length_take_le _ _)
  · rw [getTopUsers, collect_ids_eq]
    have hzr : ((zrevrangeTop (applyCalls calls emptyRedis)).map Prod.fst).Nodup := by
      have hperm := (zrevAll_perm (applyCalls calls emptyRedis).zset).map Prod.fst
      exact (hperm.nodup_iff.mpr hn).sublist ((List.take_sublist _ _).map Prod.fst)
    exact hzr.sublist ((List.filter_sublist _).map Prod.fst)

/-- Claim C4 counterexample: alice reaches score 100 first and bob reaches
it later, yet the snapshot ranks bob above alice — the store keeps no
timestamps, so the claimed earlier-first tie-break does not hold. -/
theorem c4_counterexample :
    (getTopUsers (applyCalls [⟨"alice", 100, "alice"⟩, ⟨"bob", 100, "bob"⟩] emptyRedis)).map
        (fun u => u.userId) = ["bob", "alice"] ∧
    (getTopUsers (applyCalls [⟨"alice", 100, "alice"⟩, ⟨"bob", 100, "bob"⟩] emptyRedis)).map
        (fun u => u.userId) ≠ ["alice", "bob"] := by decide

/-- Claim C4 as amended: equal-score entries are ordered deterministically
by descending lexicographic user id (the Redis sorted-set tie-break);
update time plays no role, so for alice and bob both reaching 100, bob is
ranked above alice in either update order. -/
theorem c4_tiebreak_lexicographic (calls : List UpdateCall) :
    ((getTopUsers (applyCalls calls emptyRedis)).Pairwise (fun e₁ e₂ =>
      e₂.score < e₁.score ∨ (e₂.score = e₁.score ∧ strLtB e₂.userId e₁.userId = true))) ∧
    getTopUsers (applyCalls [⟨"alice", 100, "alice"⟩, ⟨"bob", 100, "bob"⟩] emptyRedis) =
      getTopUsers (applyCalls [⟨"bob", 100, "bob"⟩, ⟨"alice", 100, "alice"⟩] emptyRedis) := by
  constructor
  · have hn : (((applyCalls calls emptyRedis).zset).map Prod.fst).Nodup :=
      nodup_zset_applyCalls calls emptyRedis (by simp [emptyRedis])
    have hpwf : (((zrevrangeTop (applyCalls calls emptyRedis)).filter
        (fun p => hashOk (applyCalls calls emptyRedis).hashes p.1)).Pairwise zrevStrict) :=
      (pairwise_zrevrangeTop hn).filter _
    have hpm : ((getTopUsers (applyCalls calls emptyRedis)).map
        (fun e => (e.userId, e.score))).Pairwise zrevStrict := by
      rw [getTopUsers, collect_pairs_eq_filter]; exact hpwf
    exact List.pairwise_map.mp hpm
  · decide

/-- Claim C5 counterexample: alice alone in the top list bumps her own
score from 10 to 20; the top-10 membership and order are unchanged, yet
the handler emits the broadcast, because the pseudocode compares the whole
JSON snapshots, which differ in the score value. -/
theorem c5_counterexample :
    Ev.broadcasted ∈ (scoreUpdateHandler bumpState "alice" "tokA" 0).trace ∧
    (getTopUsers bumpState.redis).map (fun u => u.userId) =
      (getTopUsers (scoreUpdateHandler bumpState "alice" "tokA" 0).state.redis).map
        (fun u => u.userId) := by decide

/-- Claim C5 as amended: on every successful update, the handler
broadcasts if and only if the pre-update and post-update snapshots differ
at all — in membership, ordering, or entry contents such as scores; an
update leaving the snapshots identical never triggers the broadcast. -/
theorem c5_broadcast_on_any_change (st : SysState) (userId actionToken : String)
    (now n : Nat)
    (h : (scoreUpdateHandler st userId actionToken now).resp = HResp.ok n) :
    (Ev.broadcasted ∈ (scoreUpdateHandler st userId actionToken now).trace ↔
      getTopUsers st.redis ≠
        getTopUsers (scoreUpdateHandler st userId actionToken now).state.redis) := by
  unfold scoreUpdateHandler at h ⊢
  by_cases h₁ : userId = "" ∨ actionToken = ""
  · rw [if_pos h₁] at h; exact absurd h (by simp)
  · rw [if_neg h₁] at h ⊢
    dsimp only at h ⊢
    by_cases h₂ : (validateActionToken st.tokens actionToken userId now).1 = false
    · rw [if_pos h₂] at h; exact absurd h (by simp)
    · rw [if_neg h₂] at h ⊢
      by_cases hA : (Option.map (fun x => x.username) (assocGet userId st.redis.hashes)).getD "" = ""
      · simp only [if_pos hA] at h ⊢
        by_cases hB : (assocGet userId st.db.users).getD "" = ""
        · rw [if_pos hB] at h; exact absurd h (by simp)
        · rw [if_neg hB] at h ⊢
          by_cases hEq : getTopUsers st.redis =
              getTopUsers (updateUserScore userId
                ((Option.map (fun x => x.score) (assocGet userId st.redis.hashes)).getD 0 + 10)
                ((assocGet userId st.db.users).getD "") st.redis)
          · simp [hEq]
          · simp [hEq]
      · simp only [if_neg hA] at h ⊢
        by_cases hEq : getTopUsers st.redis =
            getTopUsers (updateUserScore userId
              ((Option.map (fun x => x.score) (assocGet userId st.redis.hashes)).getD 0 + 10)
              ((Option.map (fun x => x.username) (assocGet userId st.redis.hashes)).getD "")
              st.redis)
        · simp [hEq]
        · simp [hEq]

/-- Claim C5 witness: the amended statement instantiated at the concrete
score-bump run. -/
theorem c5_broadcast_on_any_change_witness :
    (Ev.broadcasted ∈ (scoreUpdateHandler bumpState "alice" "tokA" 0).trace ↔
      getTopUsers bumpState.redis ≠
        getTopUsers (scoreUpdateHandler bumpState "alice" "tokA" 0).state.redis) :=
  c5_broadcast_on_any_change bumpState "alice" "tokA" 0 20 (by decide)

/-- Claim C6 counterexample: in a successful run the Redis leaderboard
update (`redisUpserted`) happens strictly before the durable database
write (`dbScoreUpdated`), refuting the claimed ledger-before-leaderboard
order. -/
theorem c6_counterexample :
    (scoreUpdateHandler orderState "alice" "tokA" 0).trace =
      [Ev.tokenChecked, Ev.redisUpserted, Ev.dbScoreUpdated, Ev.dbAuditInserted,
        Ev.broadcasted] ∧
    (scoreUpdateHandler orderState "alice" "tokA" 0).trace.indexOf Ev.redisUpserted <
      (scoreUpdateHandler orderState "alice" "tokA" 0).trace.indexOf Ev.dbScoreUpdated := by
  decide

/-- Claim C6 as amended: every handler run produces an initial segment of
the fixed pipeline token check → leaderboard (Redis) update → ledger score
write → audit insert → broadcast decision; the Leaderboard Store is
updated before the durable Ledger write, and no later stage is reached
without completing the earlier ones. -/
theorem c6_stage_order (st : SysState) (userId actionToken : String) (now : Nat) :
    ∃ t, (scoreUpdateHandler st userId actionToken now).trace ++ t =
      [Ev.tokenChecked, Ev.redisUpserted, Ev.dbScoreUpdated, Ev.dbAuditInserted,
        Ev.broadcasted] := by
  unfold scoreUpdateHandler
  dsimp only
  repeat' split
  all_goals exact ⟨_, rfl⟩

/-- Claim C7: the score UPDATE and the audit INSERT are two separate
commit units (the pseudocode opens no transaction), so an execution that
stops after the first statement leaves the score updated with no audit
entry — refuting the both-or-neither durability claim.  The last conjunct
ties the write list to the actual handler run. -/
theorem c7_audit_not_atomic :
    (scoreUpdateDbWrites "alice" 10 20 "tokA").length = 2 ∧
    (scoreUpdateHandler auditState "alice" "tokA" 0).state.db =
      (scoreUpdateDbWrites "alice" 10 20 "tokA").foldl applyDbWrite auditState.db ∧
    (((scoreUpdateDbWrites "alice" 10 20 "tokA").take 1).foldl applyDbWrite
      auditState.db).scores = [("alice", 20)] ∧
    (((scoreUpdateDbWrites "alice" 10 20 "tokA").take 1).foldl applyDbWrite
      auditState.db).auditLog = [] := by decide

/-- Claim C8: alice holds an authoritative ledger score of 500 but is
outside the Redis top-10 keys; the handler reads its base from the Redis
hash (`parseInt(...) || 0`), computes the update from 0, reports success
with 10, and overwrites the durable 500 with 10 — refuting the claim that
the base is the ledger score and 0 only for a user who never scored. -/
theorem c8_base_not_ledger :
    getScore ledgerState.db "alice" = 500 ∧
    (scoreUpdateHandler ledgerState "alice" "tokA" 0).resp = HResp.ok 10 ∧
    getScore (scoreUpdateHandler ledgerState "alice" "tokA" 0).state.db "alice" = 10 := by
  decide

/-- Claim C9 counterexample: one `updateUserScore` call for the user id
`x:y` (legal under the `VARCHAR(255)` schema and the unrestricted request
body).  The cleanup loop recovers the id from the hash key as
`key.split(":")[2]`, obtaining `x`, finds it absent from the top ids
`[x:y]`, and deletes the just-written hash — so the sorted set keeps the
member `x:y` while its hash is gone, refuting the claimed exact match of
hash keys and members. -/
theorem c9_counterexample :
    "x:y" ∈ ((applyCalls [⟨"x:y", 5, "xy"⟩] emptyRedis).zset).map Prod.fst ∧
    (assocGet "x:y" ((applyCalls [⟨"x:y", 5, "xy"⟩] emptyRedis).hashes)).isSome = false := by
  decide

/-- Claim C9 as amended: after any sequence of completed `updateUserScore`
calls from the empty category state whose user ids contain no colon (so
the cleanup loop's `key.split(":")[2]` recovers each id unchanged) and
whose usernames are truthy (the handler rejects blank usernames with 404
before calling `updateUserScore`), a per-user hash key exists exactly for
the members of the leaderboard sorted set — including removal of the
just-updated user's hash when the trim evicts them. -/
theorem c9_hashes_match_members (calls : List UpdateCall)
    (h : ∀ c ∈ calls, c.username ≠ "")
    (hid : ∀ c ∈ calls, keySplitUid c.userId = c.userId) (uid : String) :
    ((assocGet uid ((applyCalls calls emptyRedis).hashes)).isSome = true ↔
      uid ∈ ((applyCalls calls emptyRedis).zset).map Prod.fst) :=
  (goodState_applyCalls calls emptyRedis goodState_empty h hid).1 uid

/-- Claim C9 witness: the amended invariant instantiated after two
concrete colon-free calls. -/
theorem c9_hashes_match_members_witness :
    ((assocGet "bob" ((applyCalls [⟨"alice", 100, "alice"⟩, ⟨"bob", 50, "bob"⟩]
        emptyRedis).hashes)).isSome = true ↔
      "bob" ∈ ((applyCalls [⟨"alice", 100, "alice"⟩, ⟨"bob", 50, "bob"⟩]
        emptyRedis).zset).map Prod.fst) :=
  c9_hashes_match_members _ (by decide) (by decide) "bob"

/-- Claim C10: `getTopUsers` never fails on a ranked member whose hash is
missing — the snapshot is exactly the ranked entries whose hash test
passes, in rank order, so its length never exceeds the ranked list, and it
can be shorter even when the sorted set holds a full ten members
(`shortState` has ten members and a nine-entry snapshot). -/
theorem c10_missing_hash_omitted :
    (∀ st : RedisState,
      (getTopUsers st).map (fun e => (e.userId, e.score)) =
        (zrevrangeTop st).filter (fun p => hashOk st.hashes p.1) ∧
      (getTopUsers st).length ≤ (zrevrangeTop st).length) ∧
    (shortState.zset.length = 10 ∧ (getTopUsers shortState).length = 9) := by
  refine ⟨fun st => ⟨collect_pairs_eq_filter st.hashes (zrevrangeTop st), ?_⟩,
    by decide, by decide⟩
  exact collect_length_le _ _
